import Mathlib

/-!
Verification of the headlong thought-stream system.

This file gives a shallow embedding of the ordered thought timeline
(`packages/env/supabase_client.py`, `packages/agent/supabase_client.py`),
the action dispatcher (`packages/env/main.py`), the sandboxed REPL executor
(`packages/agent/repl.py`) and the recursive generation loop
(`packages/agent/llm.py`), and proves the claimed properties about them.

Conventions of the embedding:
* the `thoughts` table is a `List Thought`; the datastore's `ORDER BY ... LIMIT 1`
  queries become minimum/maximum computations over the rows' `index` values;
* the floating-point `index` column is modelled with exact rationals `ℚ`
  (the spec's §9 flags float precision as an open question and states the
  ordering properties at the exact-arithmetic level);
* Python string methods `.lower()` / `.startswith(...)` are modelled
  character-wise over the string's character list;
* external collaborators (the model provider, the tool registry, realtime
  transport) are parameters of the functions that call them.
-/

/-- Character-wise model of Python `str.lower()` (ASCII-faithful). -/
def pyLower (s : String) : String :=
  String.mk (s.data.map Char.toLower)

/-- Model of Python `str.startswith(pre)`: `pre`'s characters are a
leading segment of `s`'s characters. -/
def pyStartsWith (s pre : String) : Bool :=
  pre.data.isPrefixOf s.data

/-- Values stored in a thought's `metadata` JSON object.  The code only ever
reads booleans (`needs_handling`) and writer-identity strings
(`last_updated_by`) from it, so those two shapes suffice. -/
inductive MVal where
  | b (val : Bool)
  | s (val : String)
deriving DecidableEq

/-- A JSON object, as an association list in key-insertion order
(mirroring a Python `dict`). -/
abbrev Metadata := List (String × MVal)

/-- Python `dict.get(k)`: the value at the first (unique) occurrence of `k`. -/
def mget (m : Metadata) (k : String) : Option MVal :=
  (m.find? (fun p => p.1 == k)).map Prod.snd

/-- Python dict update `{**m, k: v}` restricted to one key: overrides `k` in
place if present, otherwise appends it. -/
def dictSet (m : Metadata) (k : String) (v : MVal) : Metadata :=
  if m.any (fun p => p.1 == k) then
    m.map (fun p => if p.1 == k then (k, v) else p)
  else m ++ [(k, v)]

/-- One row of the `thoughts` table (spec §3). -/
structure Thought where
  id : String
  agent_name : String
  body : String
  index : ℚ
  metadata : Metadata
  embedding : Option (List ℚ)
  created_at : ℕ
deriving DecidableEq

/-- The `index` values of one agent's rows, in row order: the projection that
every `select "index" ... eq("agent_name", agent)` query ranges over. -/
def agentIndices (db : List Thought) (agent : String) : List ℚ :=
  (db.filter (fun t => t.agent_name == agent)).map Thought.index

/-- Minimum of a list of rationals; models `.order("index", desc=False).limit(1)`. -/
def listMin : List ℚ → Option ℚ
  | [] => none
  | x :: xs =>
    match listMin xs with
    | none => some x
    | some m => some (min x m)

/-- Maximum of a list of rationals; models `.order("index", desc=True).limit(1)`. -/
def listMax : List ℚ → Option ℚ
  | [] => none
  | x :: xs =>
    match listMax xs with
    | none => some x
    | some m => some (max x m)

/-- The query inside `compute_insert_index`
(env/supabase_client.py lines 49-57): smallest existing index of `agent`
strictly greater than `r`, if any. -/
def minIndexGt (db : List Thought) (agent : String) (r : ℚ) : Option ℚ :=
  listMin ((agentIndices db agent).filter (fun i => decide (r < i)))

/-- Model of `compute_insert_index` (env/supabase_client.py lines 45-62): the index for
inserting a thought after index `insert_after_index`. -/
def compute_insert_index (db : List Thought) (agent : String)
    (insert_after_index : ℚ) : ℚ :=
  match minIndexGt db agent insert_after_index with
  | none => insert_after_index + 1
  | some n => (insert_after_index + n) / 2

/-- The index assigned by the append path of `add_thought`
(env/supabase_client.py lines 70-87): `max_index + 1.0` where `max_index`
is the greatest existing index, or `0` when the agent has no rows. -/
def appendIndex (db : List Thought) (agent : String) : ℚ :=
  (listMax (agentIndices db agent)).getD 0 + 1

/-- The row dict passed to `.insert(...)` by `add_thought`: only
`agent_name`, `body` and `index` are supplied; the remaining columns take
their database defaults (modelled as empty metadata, no embedding). The
`id` is generated by the database and is a parameter here. -/
def newRow (nid agent body : String) (idx : ℚ) : Thought :=
  { id := nid, agent_name := agent, body := body, index := idx,
    metadata := [], embedding := none, created_at := 0 }

/-- Model of `add_thought` (env/supabase_client.py lines 65-101): append when
`insert_after_index` is `None`, otherwise insert at the computed
midpoint index. -/
def add_thought (db : List Thought) (nid agent body : String)
    (insert_after_index : Option ℚ) : List Thought :=
  match insert_after_index with
  | none => db ++ [newRow nid agent body (appendIndex db agent)]
  | some r => db ++ [newRow nid agent body (compute_insert_index db agent r)]

/-- Model of `get_max_thought_index` (agent/supabase_client.py lines 80-92): the
current max index for an agent, `0.0` when the agent has no rows. -/
def get_max_thought_index (db : List Thought) (agent : String) : ℚ :=
  (listMax (agentIndices db agent)).getD 0

theorem listMin_eq_none_iff (l : List ℚ) : listMin l = none ↔ l = [] := by
  cases l with
  | nil => simp [listMin]
  | cons x xs =>
    simp only [listMin]
    cases listMin xs <;> simp

theorem listMin_mem {l : List ℚ} : ∀ {m : ℚ}, listMin l = some m → m ∈ l := by
  induction l with
  | nil => intro m h; simp [listMin] at h
  | cons x xs ih =>
    intro m h
    simp only [listMin] at h
    cases hxs : listMin xs with
    | none =>
      rw [hxs] at h
      simp at h
      rw [← h]
      exact List.mem_cons_self x xs
    | some m' =>
      rw [hxs] at h
      simp at h
      rcases min_choice x m' with hc | hc
      · have hm : m = x := by rw [← h, hc]
        rw [hm]
        exact List.mem_cons_self x xs
      · have hm : m = m' := by rw [← h, hc]
        rw [hm]
        exact List.mem_cons_of_mem x (ih hxs)

theorem listMin_le {l : List ℚ} : ∀ {m : ℚ}, listMin l = some m →
    ∀ x ∈ l, m ≤ x := by
  induction l with
  | nil => intro m h; simp [listMin] at h
  | cons x xs ih =>
    intro m h
    simp only [listMin] at h
    cases hxs : listMin xs with
    | none =>
      rw [hxs] at h
      simp at h
      have hnil : xs = [] := (listMin_eq_none_iff xs).mp hxs
      subst hnil
      intro y hy
      simp at hy
      rw [hy, ← h]
    | some m' =>
      rw [hxs] at h
      simp at h
      intro y hy
      rcases List.mem_cons.mp hy with hy | hy
      · rw [hy, ← h]
        exact min_le_left x m'
      · calc m = min x m' := h.symm
          _ ≤ m' := min_le_right x m'
          _ ≤ y := ih hxs y hy

theorem listMin_eq_some_iff {l : List ℚ} {m : ℚ} :
    listMin l = some m ↔ m ∈ l ∧ ∀ x ∈ l, m ≤ x := by
  constructor
  · intro h
    exact ⟨listMin_mem h, listMin_le h⟩
  · induction l with
    | nil => intro hm; simp at hm
    | cons x xs ih =>
      intro hm
      obtain ⟨hmem, hlb⟩ := hm
      simp only [listMin]
      cases hxs : listMin xs with
      | none =>
        have hnil : xs = [] := (listMin_eq_none_iff xs).mp hxs
        subst hnil
        simp at hmem
        simp [hmem]
      | some m' =>
        have hm'le : m ≤ m' := hlb m' (List.mem_cons_of_mem x (listMin_mem hxs))
        have hmx : m ≤ x := hlb x (List.mem_cons_self x xs)
        rcases List.mem_cons.mp hmem with hm | hm
        · have hmin : min x m' = m := le_antisymm (hm ▸ min_le_left x m')
            (le_min (le_of_eq hm) hm'le)
          simp [hmin]
        · have hlem : m' ≤ m := listMin_le hxs m hm
          have hmin : min x m' = m := le_antisymm
            (le_trans (min_le_right x m') hlem) (le_min hmx hm'le)
          simp [hmin]

theorem listMax_eq_none_iff (l : List ℚ) : listMax l = none ↔ l = [] := by
  cases l with
  | nil => simp [listMax]
  | cons x xs =>
    simp only [listMax]
    cases listMax xs <;> simp

theorem listMax_mem {l : List ℚ} : ∀ {m : ℚ}, listMax l = some m → m ∈ l := by
  induction l with
  | nil => intro m h; simp [listMax] at h
  | cons x xs ih =>
    intro m h
    simp only [listMax] at h
    cases hxs : listMax xs with
    | none =>
      rw [hxs] at h
      simp at h
      rw [← h]
      exact List.mem_cons_self x xs
    | some m' =>
      rw [hxs] at h
      simp at h
      rcases max_choice x m' with hc | hc
      · have hm : m = x := by rw [← h, hc]
        rw [hm]
        exact List.mem_cons_self x xs
      · have hm : m = m' := by rw [← h, hc]
        rw [hm]
        exact List.mem_cons_of_mem x (ih hxs)

theorem listMax_ge {l : List ℚ} : ∀ {m : ℚ}, listMax l = some m →
    ∀ x ∈ l, x ≤ m := by
  induction l with
  | nil => intro m h; simp [listMax] at h
  | cons x xs ih =>
    intro m h
    simp only [listMax] at h
    cases hxs : listMax xs with
    | none =>
      rw [hxs] at h
      simp at h
      have hnil : xs = [] := (listMax_eq_none_iff xs).mp hxs
      subst hnil
      intro y hy
      simp at hy
      rw [hy, ← h]
    | some m' =>
      rw [hxs] at h
      simp at h
      intro y hy
      rcases List.mem_cons.mp hy with hy | hy
      · rw [hy, ← h]
        exact le_max_left x m'
      · calc y ≤ m' := ih hxs y hy
          _ ≤ max x m' := le_max_right x m'
          _ = m := h

theorem listMax_eq_some_iff {l : List ℚ} {m : ℚ} :
    listMax l = some m ↔ m ∈ l ∧ ∀ x ∈ l, x ≤ m := by
  constructor
  · intro h
    exact ⟨listMax_mem h, listMax_ge h⟩
  · induction l with
    | nil => intro hm; simp at hm
    | cons x xs ih =>
      intro hm
      obtain ⟨hmem, hub⟩ := hm
      simp only [listMax]
      cases hxs : listMax xs with
      | none =>
        have hnil : xs = [] := (listMax_eq_none_iff xs).mp hxs
        subst hnil
        simp at hmem
        simp [hmem]
      | some m' =>
        have hm'le : m' ≤ m := hub m' (List.mem_cons_of_mem x (listMax_mem hxs))
        have hmx : x ≤ m := hub x (List.mem_cons_self x xs)
        rcases List.mem_cons.mp hmem with hm | hm
        · have hmax : max x m' = m := le_antisymm
            (max_le (le_of_eq hm.symm) hm'le) (hm ▸ le_max_left x m')
          simp [hmax]
        · have hlem : m ≤ m' := listMax_ge hxs m hm
          have hmax : max x m' = m := le_antisymm (max_le hmx hm'le)
            (le_trans hlem (le_max_right x m'))
          simp [hmax]

theorem agentIndices_append (db : List Thought) (t : Thought) (a : String) :
    agentIndices (db ++ [t]) a
      = agentIndices db a ++ (if t.agent_name = a then [t.index] else []) := by
  by_cases h : t.agent_name = a <;>
    simp [agentIndices, List.filter_append, h]

/-- C1: append assigns `max(existing indices for the agent) + 1.0`
(`1.0` when the agent has no rows); insert-after-`r` assigns `r + 1.0` when
no existing index of the agent exceeds `r`, and the midpoint `(r + n) / 2`
when `n` is the smallest existing index strictly greater than `r`; neither
operation modifies an existing row. -/
theorem compute_index_spec (db : List Thought) (nid agent body : String) (r : ℚ) :
    (agentIndices db agent = [] →
      add_thought db nid agent body none = db ++ [newRow nid agent body 1]) ∧
    (∀ m, listMax (agentIndices db agent) = some m →
      add_thought db nid agent body none = db ++ [newRow nid agent body (m + 1)] ∧
      get_max_thought_index db agent = m) ∧
    ((∀ i ∈ agentIndices db agent, i ≤ r) →
      compute_insert_index db agent r = r + 1) ∧
    (∀ n, n ∈ agentIndices db agent → r < n →
      (∀ i ∈ agentIndices db agent, r < i → n ≤ i) →
      compute_insert_index db agent r = (r + n) / 2) ∧
    (∀ o : Option ℚ, ∃ t, add_thought db nid agent body o = db ++ [t]) := by
  refine ⟨?_, ?_, ?_, ?_, ?_⟩
  · intro h
    simp [add_thought, appendIndex, h, listMax]
  · intro m hm
    constructor
    · simp [add_thought, appendIndex, hm]
    · simp [get_max_thought_index, hm]
  · intro h
    have hfil : (agentIndices db agent).filter (fun i => decide (r < i)) = [] := by
      apply List.filter_eq_nil_iff.mpr
      intro i hi
      simpa using not_lt_of_le (h i hi)
    simp [compute_insert_index, minIndexGt, hfil, listMin]
  · intro n hn hrn hlb
    have hfil : listMin ((agentIndices db agent).filter (fun i => decide (r < i)))
        = some n := by
      apply listMin_eq_some_iff.mpr
      constructor
      · exact List.mem_filter.mpr ⟨hn, by simpa using hrn⟩
      · intro x hx
        have := List.mem_filter.mp hx
        exact hlb x this.1 (by simpa using this.2)
    simp [compute_insert_index, minIndexGt, hfil]
  · intro o
    cases o <;> exact ⟨_, rfl⟩

/-- Concrete database used by several witnesses: agent `alice` has rows at
indices `1.0` and `2.0`. -/
def dbTwo : List Thought :=
  [newRow "t1" "alice" "first" 1, newRow "t2" "alice" "second" 2]

/-- Witness for `compute_index_spec` at a concrete database: with rows at
`1.0` and `2.0`, the max is `2.0`, appending lands at `2 + 1`, and inserting
after `1.0` lands at `(1 + 2) / 2`. -/
theorem compute_index_spec_witness :
    (listMax (agentIndices dbTwo "alice") = some 2 ∧
      add_thought dbTwo "t3" "alice" "b" none
        = dbTwo ++ [newRow "t3" "alice" "b" (2 + 1)] ∧
      get_max_thought_index dbTwo "alice" = 2) ∧
    ((2 : ℚ) ∈ agentIndices dbTwo "alice" ∧
      compute_insert_index dbTwo "alice" 1 = (1 + 2) / 2) := by
  have hmax : listMax (agentIndices dbTwo "alice") = some 2 := by
    simp [dbTwo, agentIndices, newRow, listMax]
  have hmem : (2 : ℚ) ∈ agentIndices dbTwo "alice" := by
    simp [dbTwo, agentIndices, newRow]
  refine ⟨⟨hmax, ?_, ?_⟩, hmem, ?_⟩
  · exact ((compute_index_spec dbTwo "t3" "alice" "b" 1).2.1 2 hmax).1
  · exact ((compute_index_spec dbTwo "t3" "alice" "b" 1).2.1 2 hmax).2
  · refine (compute_index_spec dbTwo "t3" "alice" "b" 1).2.2.2.1 2 hmem (by norm_num) ?_
    intro i hi hri
    simp [dbTwo, agentIndices, newRow] at hi
    rcases hi with hi | hi
    · rw [hi] at hri
      exact absurd hri (by norm_num)
    · rw [hi]

theorem compute_insert_index_gt (db : List Thought) (agent : String) (r : ℚ) :
    r < compute_insert_index db agent r := by
  unfold compute_insert_index
  cases h : minIndexGt db agent r with
  | none => linarith
  | some n =>
    have hn := listMin_mem h
    have hrn : r < n := by
      have := (List.mem_filter.mp hn).2
      simpa using this
    show r < (r + n) / 2
    linarith

theorem compute_insert_index_lt (db : List Thought) (agent : String) (r : ℚ) :
    ∀ i ∈ agentIndices db agent, r < i → compute_insert_index db agent r < i := by
  intro i hi hri
  unfold compute_insert_index
  cases h : minIndexGt db agent r with
  | none =>
    exfalso
    have hfil : (agentIndices db agent).filter (fun x => decide (r < x)) = [] :=
      (listMin_eq_none_iff _).mp h
    have : i ∈ (agentIndices db agent).filter (fun x => decide (r < x)) :=
      List.mem_filter.mpr ⟨hi, by simpa using hri⟩
    rw [hfil] at this
    exact List.not_mem_nil i this
  | some n =>
    have hle : n ≤ i := listMin_le h i (List.mem_filter.mpr ⟨hi, by simpa using hri⟩)
    have hrn : r < n := by
      have := (List.mem_filter.mp (listMin_mem h)).2
      simpa using this
    show (r + n) / 2 < i
    linarith

theorem appendIndex_gt (db : List Thought) (agent : String) :
    ∀ i ∈ agentIndices db agent, i < appendIndex db agent := by
  intro i hi
  unfold appendIndex
  cases h : listMax (agentIndices db agent) with
  | none =>
    exfalso
    rw [(listMax_eq_none_iff _).mp h] at hi
    exact List.not_mem_nil i hi
  | some m =>
    have := listMax_ge h i hi
    simp only [Option.getD_some]
    linarith

/-- The index that `add_thought` assigns to the new row. -/
def assignedIndex (db : List Thought) (agent : String) : Option ℚ → ℚ
  | none => appendIndex db agent
  | some r => compute_insert_index db agent r

theorem add_thought_eq (db : List Thought) (nid agent body : String)
    (o : Option ℚ) :
    add_thought db nid agent body o
      = db ++ [newRow nid agent body (assignedIndex db agent o)] := by
  cases o <;> rfl

theorem agentIndices_add_thought (db : List Thought)
    (nid agent body : String) (o : Option ℚ) :
    agentIndices (add_thought db nid agent body o) agent
      = agentIndices db agent ++ [assignedIndex db agent o] := by
  rw [add_thought_eq, agentIndices_append]
  simp [newRow]

theorem agentIndices_add_thought_ne (db : List Thought)
    (nid agent body : String) (o : Option ℚ) (ag : String) (hag : agent ≠ ag) :
    agentIndices (add_thought db nid agent body o) ag = agentIndices db ag := by
  rw [add_thought_eq, agentIndices_append]
  simp [newRow, hag]

theorem assignedIndex_fresh (db : List Thought) (agent : String) (o : Option ℚ) :
    ∀ i ∈ agentIndices db agent, i ≠ assignedIndex db agent o := by
  intro i hi
  cases o with
  | none => exact ne_of_lt (appendIndex_gt db agent i hi)
  | some r =>
    show i ≠ compute_insert_index db agent r
    by_cases hr : r < i
    · exact ne_of_gt (compute_insert_index_lt db agent r i hi hr)
    · have h1 : i ≤ r := le_of_not_lt hr
      have h2 : r < compute_insert_index db agent r := compute_insert_index_gt db agent r
      exact ne_of_lt (lt_of_le_of_lt h1 h2)

theorem add_thought_nodup (db : List Thought) (nid agent body : String)
    (o : Option ℚ) (h : ∀ ag, (agentIndices db ag).Nodup) :
    ∀ ag, (agentIndices (add_thought db nid agent body o) ag).Nodup := by
  intro ag
  rw [add_thought_eq, agentIndices_append]
  by_cases hag : agent = ag
  · subst hag
    simp only [newRow, if_pos rfl]
    rw [List.nodup_append]
    refine ⟨h agent, List.nodup_singleton _, ?_⟩
    intro x hx hx1
    simp at hx1
    exact assignedIndex_fresh db agent o x hx hx1
  · simp [newRow, hag, h ag]

/-- One timeline write: either an append or a midpoint insertion after a
reference index (the two entry points of `add_thought`). -/
inductive TimelineOp where
  | append (nid agent body : String)
  | insertAfter (nid agent body : String) (r : ℚ)

/-- Apply one timeline write to the table. -/
def applyOp (db : List Thought) : TimelineOp → List Thought
  | .append nid agent body => add_thought db nid agent body none
  | .insertAfter nid agent body r => add_thought db nid agent body (some r)

/-- Apply a sequence of timeline writes, oldest first. -/
def applyOps (db : List Thought) : List TimelineOp → List Thought
  | [] => db
  | op :: rest => applyOps (applyOp db op) rest

theorem applyOps_nodup : ∀ (ops : List TimelineOp) (db : List Thought),
    (∀ ag, (agentIndices db ag).Nodup) →
    ∀ ag, (agentIndices (applyOps db ops) ag).Nodup := by
  intro ops
  induction ops with
  | nil => intro db h ag; exact h ag
  | cons op rest ih =>
    intro db h ag
    apply ih
    cases op with
    | append nid a body => exact add_thought_nodup db nid a body none h
    | insertAfter nid a body r => exact add_thought_nodup db nid a body (some r) h

theorem listMax_append_single (l : List ℚ) (a : ℚ) :
    listMax (l ++ [a]) =
      match listMax l with
      | none => some a
      | some m => some (max m a) := by
  induction l with
  | nil => simp [listMax]
  | cons x xs ih =>
    show listMax (x :: (xs ++ [a])) = _
    simp only [listMax, ih]
    cases hxs : listMax xs with
    | none =>
      have : xs = [] := (listMax_eq_none_iff xs).mp hxs
      subst this
      simp [listMax]
    | some m => simp [max_assoc]

theorem listMax_range_map (N : ℕ) :
    listMax ((List.range N).map (fun k : ℕ => (k : ℚ) + 1))
      = if N = 0 then none else some (N : ℚ) := by
  induction N with
  | zero => simp [listMax]
  | succ n ih =>
    rw [List.range_succ, List.map_append]
    simp only [List.map_cons, List.map_nil]
    rw [listMax_append_single, ih]
    by_cases hn : n = 0
    · subst hn
      norm_num
    · simp only [if_neg hn, if_neg (Nat.succ_ne_zero n)]
      have : max (n : ℚ) ((n : ℚ) + 1) = (n : ℚ) + 1 := max_eq_right (by linarith)
      rw [this]
      push_cast
      ring_nf

/-- Appending `N` fresh thoughts for one agent, oldest first, each through
the append path of `add_thought`. -/
def appendN (db : List Thought) (agent : String) : ℕ → List Thought
  | 0 => db
  | n + 1 => add_thought (appendN db agent n) (toString n) agent "" none

theorem appendN_indices (db : List Thought) (agent : String)
    (h : agentIndices db agent = []) :
    ∀ N, agentIndices (appendN db agent N) agent
      = (List.range N).map (fun k : ℕ => (k : ℚ) + 1) := by
  intro N
  induction N with
  | zero => simpa [appendN] using h
  | succ n ih =>
    show agentIndices (add_thought (appendN db agent n) (toString n) agent "" none)
      agent = _
    rw [agentIndices_add_thought]
    have hidx : assignedIndex (appendN db agent n) agent none = (n : ℚ) + 1 := by
      show appendIndex (appendN db agent n) agent = (n : ℚ) + 1
      unfold appendIndex
      rw [ih, listMax_range_map]
      by_cases hn : n = 0
      · subst hn; norm_num
      · simp [if_neg hn]
    rw [ih, hidx, List.range_succ, List.map_append]
    simp

/-- C6: appending `N` thoughts to an agent with no prior thoughts yields
indices `1.0, 2.0, …, N.0`; and any sequence of appends and midpoint
insertions keeps every agent's indices pairwise distinct. -/
theorem append_growth_and_index_uniqueness :
    (∀ (db : List Thought) (agent : String) (N : ℕ),
      agentIndices db agent = [] →
      agentIndices (appendN db agent N) agent
        = (List.range N).map (fun k : ℕ => (k : ℚ) + 1)) ∧
    (∀ (ops : List TimelineOp) (db : List Thought),
      (∀ ag, (agentIndices db ag).Nodup) →
      ∀ ag, (agentIndices (applyOps db ops) ag).Nodup) := by
  constructor
  · intro db agent N h
    exact appendN_indices db agent h N
  · exact applyOps_nodup

/-- Witness for `append_growth_and_index_uniqueness`: three appends from the
empty table yield indices `[1, 2, 3]`, and an append-insert-append sequence
leaves the indices pairwise distinct. -/
theorem append_growth_witness :
    (agentIndices [] "alice" = [] ∧
      agentIndices (appendN [] "alice" 3) "alice"
        = (List.range 3).map (fun k : ℕ => (k : ℚ) + 1)) ∧
    ((∀ ag, (agentIndices ([] : List Thought) ag).Nodup) ∧
      (agentIndices
        (applyOps [] [TimelineOp.append "a" "alice" "x",
          TimelineOp.insertAfter "b" "alice" "y" 1,
          TimelineOp.append "c" "alice" "z"]) "alice").Nodup) := by
  have h0 : agentIndices [] "alice" = [] := by simp [agentIndices]
  have hall : ∀ ag, (agentIndices ([] : List Thought) ag).Nodup := by
    intro ag
    simp [agentIndices]
  exact ⟨⟨h0, append_growth_and_index_uniqueness.1 [] "alice" 3 h0⟩,
    ⟨hall, append_growth_and_index_uniqueness.2 _ [] hall "alice"⟩⟩

/-- C8: with no other writers, inserting after `r` twice in a row yields a
second index strictly greater than `r` and strictly below the first call's
index, whatever rows already exist. -/
theorem insert_after_twice_between (db : List Thought)
    (nid1 agent b1 : String) (r : ℚ) :
    r < compute_insert_index (add_thought db nid1 agent b1 (some r)) agent r ∧
    compute_insert_index (add_thought db nid1 agent b1 (some r)) agent r
      < compute_insert_index db agent r := by
  constructor
  · exact compute_insert_index_gt _ _ _
  · apply compute_insert_index_lt
    · rw [add_thought_eq, agentIndices_append]
      simp [newRow, assignedIndex]
    · exact compute_insert_index_gt db agent r

/-- The metadata object `mark_thought_handled` writes:
`{**metadata, "needs_handling": False, "last_updated_by": ENV_INSTANCE_ID}`
(env/supabase_client.py line 124).  The per-process `ENV_INSTANCE_ID` uuid is
the `envId` parameter. -/
def updatedMetadata (metadata : Metadata) (envId : String) : Metadata :=
  dictSet (dictSet metadata "needs_handling" (MVal.b false))
    "last_updated_by" (MVal.s envId)

/-- Model of `mark_thought_handled` (env/supabase_client.py lines 121-125): set the
`metadata` column of the rows matching `thought_id` and `agent` to the merged
object; every other column and row is untouched. -/
def mark_thought_handled (db : List Thought) (envId thought_id agent : String)
    (metadata : Metadata) : List Thought :=
  db.map (fun t =>
    if t.id == thought_id && t.agent_name == agent then
      { t with metadata := updatedMetadata metadata envId }
    else t)

theorem mget_map_set_ne (m : Metadata) (k k' : String) (v : MVal) (h : k' ≠ k) :
    mget (m.map (fun p => if p.1 == k then (k, v) else p)) k' = mget m k' := by
  induction m with
  | nil => rfl
  | cons p ps ih =>
    simp only [List.map_cons, mget, List.find?]
    by_cases hp : p.1 = k
    · have hcond : (p.1 == k) = true := beq_iff_eq.mpr hp
      rw [if_pos hcond]
      have h1 : (k == k') = false := beq_eq_false_iff_ne.mpr (Ne.symm h)
      have h2 : (p.1 == k') = false := beq_eq_false_iff_ne.mpr (hp ▸ Ne.symm h)
      simp only [h1, h2]
      exact ih
    · have hcond : (p.1 == k) = false := beq_eq_false_iff_ne.mpr hp
      rw [if_neg (by simp [hcond])]
      cases hk' : (p.1 == k') with
      | true => simp
      | false =>
        simp only [hk']
        exact ih

theorem mget_map_set_same (m : Metadata) (k : String) (v : MVal)
    (hany : m.any (fun p => p.1 == k) = true) :
    mget (m.map (fun p => if p.1 == k then (k, v) else p)) k = some v := by
  induction m with
  | nil => simp at hany
  | cons p ps ih =>
    simp only [List.map_cons, mget, List.find?]
    by_cases hp : p.1 = k
    · have hcond : (p.1 == k) = true := beq_iff_eq.mpr hp
      rw [if_pos hcond]
      simp
    · have hcond : (p.1 == k) = false := beq_eq_false_iff_ne.mpr hp
      rw [if_neg (by simp [hcond])]
      simp only [hcond]
      apply ih
      simp only [List.any_cons, hcond, Bool.false_or] at hany
      exact hany

theorem mget_append_single_ne (m : Metadata) (k k' : String) (v : MVal)
    (h : k' ≠ k) :
    mget (m ++ [(k, v)]) k' = mget m k' := by
  induction m with
  | nil =>
    simp only [List.nil_append, mget, List.find?]
    have h1 : (k == k') = false := beq_eq_false_iff_ne.mpr (Ne.symm h)
    simp [h1]
  | cons p ps ih =>
    simp only [List.cons_append, mget, List.find?]
    cases hk' : (p.1 == k') with
    | true => simp
    | false =>
      simp only [hk']
      exact ih

theorem mget_append_single_same (m : Metadata) (k : String) (v : MVal)
    (hany : m.any (fun p => p.1 == k) = false) :
    mget (m ++ [(k, v)]) k = some v := by
  induction m with
  | nil => simp [mget, List.find?]
  | cons p ps ih =>
    simp only [List.any_cons, Bool.or_eq_false_iff] at hany
    simp only [List.cons_append, mget, List.find?, hany.1]
    exact ih hany.2

theorem mget_dictSet_same (m : Metadata) (k : String) (v : MVal) :
    mget (dictSet m k v) k = some v := by
  unfold dictSet
  by_cases h : m.any (fun p => p.1 == k) = true
  · rw [if_pos h]
    exact mget_map_set_same m k v h
  · rw [if_neg h]
    exact mget_append_single_same m k v (Bool.not_eq_true _ ▸ eq_false_of_ne_true h)

theorem mget_dictSet_ne (m : Metadata) (k k' : String) (v : MVal) (h : k' ≠ k) :
    mget (dictSet m k v) k' = mget m k' := by
  unfold dictSet
  by_cases hany : m.any (fun p => p.1 == k) = true
  · rw [if_pos hany]
    exact mget_map_set_ne m k k' v h
  · rw [if_neg hany]
    exact mget_append_single_ne m k k' v h

theorem mget_updatedMetadata_needs (metadata : Metadata) (envId : String) :
    mget (updatedMetadata metadata envId) "needs_handling"
      = some (MVal.b false) := by
  unfold updatedMetadata
  rw [mget_dictSet_ne _ _ _ _ (by decide)]
  exact mget_dictSet_same _ _ _

theorem mget_updatedMetadata_writer (metadata : Metadata) (envId : String) :
    mget (updatedMetadata metadata envId) "last_updated_by"
      = some (MVal.s envId) :=
  mget_dictSet_same _ _ _

theorem mget_updatedMetadata_other (metadata : Metadata) (envId k : String)
    (h1 : k ≠ "needs_handling") (h2 : k ≠ "last_updated_by") :
    mget (updatedMetadata metadata envId) k = mget metadata k := by
  unfold updatedMetadata
  rw [mget_dictSet_ne _ _ _ _ h2]
  exact mget_dictSet_ne _ _ _ _ h1

/-- C10: `mark_thought_handled` rewrites only the `metadata` column of the
rows matching the given id and agent — every other row is untouched, the
matched row keeps its id, body, index, agent, embedding and creation time,
and the new metadata is the old object with `needs_handling := false` and
`last_updated_by := envId` merged in, all other keys preserved. -/
theorem mark_thought_handled_frame (db : List Thought)
    (envId tid agent : String) (md : Metadata) :
    (mark_thought_handled db envId tid agent md).length = db.length ∧
    (∀ (i : ℕ) (h : i < db.length)
        (h' : i < (mark_thought_handled db envId tid agent md).length),
      (¬((db.get ⟨i, h⟩).id = tid ∧ (db.get ⟨i, h⟩).agent_name = agent) →
        (mark_thought_handled db envId tid agent md).get ⟨i, h'⟩
          = db.get ⟨i, h⟩) ∧
      ((db.get ⟨i, h⟩).id = tid → (db.get ⟨i, h⟩).agent_name = agent →
        (mark_thought_handled db envId tid agent md).get ⟨i, h'⟩
          = { db.get ⟨i, h⟩ with metadata := updatedMetadata md envId })) ∧
    mget (updatedMetadata md envId) "needs_handling" = some (MVal.b false) ∧
    mget (updatedMetadata md envId) "last_updated_by" = some (MVal.s envId) ∧
    (∀ k, k ≠ "needs_handling" → k ≠ "last_updated_by" →
      mget (updatedMetadata md envId) k = mget md k) := by
  refine ⟨List.length_map db _, ?_, mget_updatedMetadata_needs md envId,
    mget_updatedMetadata_writer md envId, mget_updatedMetadata_other md envId⟩
  intro i h h'
  constructor
  · intro hne
    simp only [mark_thought_handled, List.get_eq_getElem, List.getElem_map]
    rw [if_neg]
    intro hcontra
    rw [Bool.and_eq_true, beq_iff_eq, beq_iff_eq] at hcontra
    exact hne ⟨hcontra.1, hcontra.2⟩
  · intro hid hagent
    simp only [mark_thought_handled, List.get_eq_getElem, List.getElem_map]
    rw [if_pos]
    rw [Bool.and_eq_true, beq_iff_eq, beq_iff_eq]
    exact ⟨hid, hagent⟩

/-- Metadata of the example action thought. -/
def mdEx : Metadata := [("needs_handling", MVal.b true), ("source", MVal.s "tg")]

/-- Example action thought for witnesses. -/
def tEx : Thought :=
  { id := "t1", agent_name := "alice", body := "action: ping", index := 1,
    metadata := mdEx, embedding := none, created_at := 0 }

/-- Witness for `mark_thought_handled_frame`: marking the single matching row
updates exactly its metadata, and unrelated keys such as `source` survive. -/
theorem mark_thought_handled_frame_witness :
    ((0 : ℕ) < ([tEx] : List Thought).length ∧
      (([tEx] : List Thought).get ⟨0, by decide⟩).id = "t1" ∧
      (([tEx] : List Thought).get ⟨0, by decide⟩).agent_name = "alice") ∧
    (mark_thought_handled [tEx] "env1" "t1" "alice" mdEx).get
        ⟨0, by simp [mark_thought_handled]⟩
      = { tEx with metadata := updatedMetadata mdEx "env1" } ∧
    mget (updatedMetadata mdEx "env1") "source" = mget mdEx "source" := by
  refine ⟨⟨by decide, rfl, rfl⟩, ?_, ?_⟩
  · exact ((mark_thought_handled_frame [tEx] "env1" "t1" "alice" mdEx).2.1 0
      (by decide) (by simp [mark_thought_handled])).2 rfl rfl
  · exact (mark_thought_handled_frame [tEx] "env1" "t1" "alice" mdEx).2.2.2.2
      "source" (by decide) (by decide)

/-- Insertion step for descending sort by `index`. -/
def insertDesc (t : Thought) : List Thought → List Thought
  | [] => [t]
  | u :: us => if u.index ≤ t.index then t :: u :: us else u :: insertDesc t us

/-- Model of `.order("index", desc=True)` over concrete rows, as insertion sort. -/
def sortDesc : List Thought → List Thought
  | [] => []
  | t :: ts => insertDesc t (sortDesc ts)

/-- Model of `get_recent_thoughts` (env/supabase_client.py lines 104-118): rows of the
agent with `index ≤ up_to_index`, newest first, truncated to `limit`, then
reversed into ascending order. -/
def get_recent_thoughts (db : List Thought) (agent : String) (up_to_index : ℚ)
    (limit : ℕ) : List Thought :=
  ((sortDesc (db.filter (fun t =>
    t.agent_name == agent && decide (t.index ≤ up_to_index)))).take limit).reverse

/-- The constant `NUM_THOUGHTS_TO_CONSIDER` (env/main.py line 41). -/
def NUM_THOUGHTS_TO_CONSIDER : ℕ := 20

/-- The dispatcher's gate (env/main.py lines 72-78): the lowercased body
starts with the reserved prefix `"action: "` (note the trailing space) and
`metadata.get("needs_handling") is True`. -/
def actionable (t : Thought) : Bool :=
  pyStartsWith (pyLower t.body) "action: "
    && decide (mget t.metadata "needs_handling" = some (MVal.b true))

/-- Outcome of `llm.generate_action` (env/llm.py lines 92-142): either plain
text or one tool invocation.  The model provider is external, so the outcome
is a parameter of the dispatcher model. -/
inductive ActionResult where
  | text (content : String)
  | tool_use (name args : String)

/-- Observable side effects of one `handle_thought` run, in program order. -/
inductive Event where
  | markedHandled (tid : String)
  | capabilityCall (name args : String)
  | wroteThought (nid : String) (idx : ℚ)
deriving DecidableEq

/-- Process-local dispatcher state: the `_handled_ids` set (env/main.py
line 65) and the thoughts table. -/
structure EnvState where
  handled_ids : List String
  db : List Thought
deriving DecidableEq

/-- Model of `handle_thought` (env/main.py lines 67-143).  `envId` models
`ENV_INSTANCE_ID`; `execTool` models `tools.execute_tool` (external tool
registry); `res` is the model provider's reply; `newId` the id the database
assigns to the inserted row; `agent` the daemon's `agent_name` argument.
Control flow follows the source: gate, dedup against `_handled_ids`, insert
into the set, metadata flip, context fetch (early return when empty), then
either a plain appended thought (text reply) or one tool execution whose
observation is inserted after the triggering thought's index. -/
def handle_thought (envId : String) (execTool : String → String → String)
    (res : ActionResult) (newId agent : String) (st : EnvState) (t : Thought) :
    EnvState × List Event :=
  if actionable t = false then (st, [])
  else if t.id ∈ st.handled_ids then (st, [])
  else
    let ids := t.id :: st.handled_ids
    let db1 := mark_thought_handled st.db envId t.id agent t.metadata
    let thoughts := get_recent_thoughts db1 agent t.index NUM_THOUGHTS_TO_CONSIDER
    if thoughts.isEmpty then (⟨ids, db1⟩, [Event.markedHandled t.id])
    else
      match res with
      | ActionResult.text content =>
        (⟨ids, add_thought db1 newId agent content none⟩,
         [Event.markedHandled t.id,
          Event.wroteThought newId (assignedIndex db1 agent none)])
      | ActionResult.tool_use name args =>
        (⟨ids, add_thought db1 newId agent (execTool name args) (some t.index)⟩,
         [Event.markedHandled t.id, Event.capabilityCall name args,
          Event.wroteThought newId (assignedIndex db1 agent (some t.index))])

/-- Number of capability invocations recorded in a trace. -/
def capCount (evs : List Event) : ℕ :=
  (evs.filter (fun e =>
    match e with
    | Event.capabilityCall _ _ => true
    | _ => false)).length

theorem insertDesc_length (t : Thought) (l : List Thought) :
    (insertDesc t l).length = l.length + 1 := by
  induction l with
  | nil => rfl
  | cons u us ih =>
    unfold insertDesc
    by_cases h : u.index ≤ t.index
    · simp [h]
    · simp [h, ih]

theorem sortDesc_length (l : List Thought) : (sortDesc l).length = l.length := by
  induction l with
  | nil => rfl
  | cons t ts ih => simp [sortDesc, insertDesc_length, ih]

theorem get_recent_thoughts_ne_empty (db : List Thought) (agent : String)
    (r : ℚ) (limit : ℕ) (hl : 0 < limit) (t : Thought) (ht : t ∈ db)
    (ha : t.agent_name = agent) (hi : t.index ≤ r) :
    (get_recent_thoughts db agent r limit).isEmpty = false := by
  have hmem : t ∈ db.filter (fun u =>
      u.agent_name == agent && decide (u.index ≤ r)) :=
    List.mem_filter.mpr ⟨ht, by simp [ha, hi]⟩
  have hflen : 0 < (db.filter (fun u =>
      u.agent_name == agent && decide (u.index ≤ r))).length :=
    List.length_pos.mpr (List.ne_nil_of_mem hmem)
  have hlen : 0 < (get_recent_thoughts db agent r limit).length := by
    unfold get_recent_thoughts
    rw [List.length_reverse, List.length_take, sortDesc_length]
    exact lt_min hl hflen
  cases hgr : get_recent_thoughts db agent r limit with
  | nil => rw [hgr] at hlen; simp at hlen
  | cons a as => rfl

theorem mark_preserves_row (db : List Thought) (envId tid agent : String)
    (md : Metadata) (t : Thought) (ht : t ∈ db) :
    ∃ u ∈ mark_thought_handled db envId tid agent md,
      u.agent_name = t.agent_name ∧ u.index = t.index := by
  refine ⟨_, List.mem_map_of_mem _ ht, ?_⟩
  by_cases h : (t.id == tid && t.agent_name == agent) = true
  · simp [h]
  · simp [eq_false_of_ne_true h]

theorem handle_thought_not_actionable (envId : String)
    (execTool : String → String → String) (res : ActionResult)
    (newId agent : String) (st : EnvState) (t : Thought)
    (h : actionable t = false) :
    handle_thought envId execTool res newId agent st t = (st, []) := by
  unfold handle_thought
  rw [if_pos h]

theorem handle_thought_dup (envId : String)
    (execTool : String → String → String) (res : ActionResult)
    (newId agent : String) (st : EnvState) (t : Thought)
    (h : actionable t = true) (hdup : t.id ∈ st.handled_ids) :
    handle_thought envId execTool res newId agent st t = (st, []) := by
  unfold handle_thought
  rw [if_neg (by simp [h]), if_pos hdup]

theorem handle_thought_tool_use (envId : String)
    (execTool : String → String → String) (name args newId agent : String)
    (st : EnvState) (t : Thought)
    (h : actionable t = true) (hdedup : t.id ∉ st.handled_ids)
    (hne : (get_recent_thoughts
        (mark_thought_handled st.db envId t.id agent t.metadata)
        agent t.index NUM_THOUGHTS_TO_CONSIDER).isEmpty = false) :
    handle_thought envId execTool (ActionResult.tool_use name args)
        newId agent st t
      = (⟨t.id :: st.handled_ids,
          add_thought (mark_thought_handled st.db envId t.id agent t.metadata)
            newId agent (execTool name args) (some t.index)⟩,
         [Event.markedHandled t.id, Event.capabilityCall name args,
          Event.wroteThought newId
            (assignedIndex
              (mark_thought_handled st.db envId t.id agent t.metadata)
              agent (some t.index))]) := by
  unfold handle_thought
  rw [if_neg (by simp [h]), if_neg hdedup]
  simp only [hne]
  rfl

theorem handle_thought_text (envId : String)
    (execTool : String → String → String) (content newId agent : String)
    (st : EnvState) (t : Thought)
    (h : actionable t = true) (hdedup : t.id ∉ st.handled_ids)
    (hne : (get_recent_thoughts
        (mark_thought_handled st.db envId t.id agent t.metadata)
        agent t.index NUM_THOUGHTS_TO_CONSIDER).isEmpty = false) :
    handle_thought envId execTool (ActionResult.text content)
        newId agent st t
      = (⟨t.id :: st.handled_ids,
          add_thought (mark_thought_handled st.db envId t.id agent t.metadata)
            newId agent content none⟩,
         [Event.markedHandled t.id,
          Event.wroteThought newId
            (assignedIndex
              (mark_thought_handled st.db envId t.id agent t.metadata)
              agent none)]) := by
  unfold handle_thought
  rw [if_neg (by simp [h]), if_neg hdedup]
  simp only [hne]
  rfl

/-- Second row for the end-to-end scenario: an ordinary thought at index 2. -/
def t2Ex : Thought := newRow "t2" "alice" "second" 2

/-- The actionability predicate as the claim literally words it: the body
matches the reserved prefix `action:` (no trailing space) case-insensitively
and `needs_handling` is true.  Written from the claim for comparison with
the dispatcher's `actionable` gate. -/
def claimActionable (t : Thought) : Bool :=
  pyStartsWith (pyLower t.body) "action:"
    && decide (mget t.metadata "needs_handling" = some (MVal.b true))

/-- A thought whose body carries the `action:` marker without the trailing
space, flagged as needing handling. -/
def tNoSpace : Thought :=
  { id := "t9", agent_name := "alice", body := "action:ping", index := 1,
    metadata := [("needs_handling", MVal.b true)], embedding := none,
    created_at := 0 }

/-- C3 counterexample: `"action:ping"` matches the claim's `action:` prefix
case-insensitively and is flagged `needs_handling`, yet `handle_thought`
performs no side effect on it, because the code's gate demands the prefix
`"action: "` with a trailing space. -/
theorem handle_thought_prefix_counterexample :
    claimActionable tNoSpace = true ∧
    actionable tNoSpace = false ∧
    handle_thought "env1" (fun _ _ => "obs") (ActionResult.tool_use "web" "q")
      "n1" "alice" ⟨[], [tNoSpace]⟩ tNoSpace = (⟨[], [tNoSpace]⟩, []) := by
  refine ⟨by decide, by decide, ?_⟩
  exact handle_thought_not_actionable _ _ _ _ _ _ _ (by decide)

/-- C3 (amended: the reserved prefix is `"action: "`, with a trailing
space): `handle_thought` treats a thought as actionable iff its lowercased
body starts with `"action: "` and its metadata maps `needs_handling` to
`true`; every thought failing the gate leaves the state unchanged with no
side effect, while a fresh thought passing it produces side effects. -/
theorem handle_thought_actionable_gate (envId : String)
    (execTool : String → String → String) (res : ActionResult)
    (newId agent : String) (st : EnvState) (t : Thought) :
    (actionable t
      = (pyStartsWith (pyLower t.body) "action: "
          && decide (mget t.metadata "needs_handling" = some (MVal.b true)))) ∧
    (actionable t = false →
      handle_thought envId execTool res newId agent st t = (st, [])) ∧
    (actionable t = true → t.id ∉ st.handled_ids →
      (handle_thought envId execTool res newId agent st t).2 ≠ []) := by
  refine ⟨rfl, handle_thought_not_actionable envId execTool res newId agent st t, ?_⟩
  intro h hdedup
  unfold handle_thought
  rw [if_neg (by simp [h]), if_neg hdedup]
  cases hemp : (get_recent_thoughts
      (mark_thought_handled st.db envId t.id agent t.metadata)
      agent t.index NUM_THOUGHTS_TO_CONSIDER).isEmpty
  · simp only [hemp]
    cases res <;> simp
  · simp only [hemp]
    simp

/-- Witness for `handle_thought_actionable_gate`: the plain thought `t2Ex`
fails the gate and is a no-op; the action thought `tEx` passes it and
produces a non-empty trace. -/
theorem handle_thought_actionable_gate_witness :
    (actionable t2Ex = false ∧
      handle_thought "env1" (fun _ _ => "obs") (ActionResult.text "x") "n1"
        "alice" ⟨[], [tEx, t2Ex]⟩ t2Ex = (⟨[], [tEx, t2Ex]⟩, [])) ∧
    (actionable tEx = true ∧ tEx.id ∉ (⟨[], [tEx, t2Ex]⟩ : EnvState).handled_ids ∧
      (handle_thought "env1" (fun _ _ => "obs") (ActionResult.text "x") "n1"
        "alice" ⟨[], [tEx, t2Ex]⟩ tEx).2 ≠ []) := by
  refine ⟨⟨by decide, ?_⟩, by decide, by simp, ?_⟩
  · exact (handle_thought_actionable_gate "env1" (fun _ _ => "obs")
      (ActionResult.text "x") "n1" "alice" ⟨[], [tEx, t2Ex]⟩ t2Ex).2.1 (by decide)
  · exact (handle_thought_actionable_gate "env1" (fun _ _ => "obs")
      (ActionResult.text "x") "n1" "alice" ⟨[], [tEx, t2Ex]⟩ tEx).2.2 (by decide)
      (by simp)

/-- C4: a second delivery of the same action-thought id within one process is
discarded by the `_handled_ids` set before any side effect: across the two
deliveries the capability runs exactly once, and the second call returns the
state unchanged with an empty trace. -/
theorem handle_thought_idempotent (envId : String)
    (execTool : String → String → String)
    (name args newId newId2 agent : String) (res2 : ActionResult)
    (st : EnvState) (t : Thought)
    (h : actionable t = true) (hdedup : t.id ∉ st.handled_ids)
    (hmem : t ∈ st.db) (hagent : t.agent_name = agent) :
    capCount ((handle_thought envId execTool (ActionResult.tool_use name args)
        newId agent st t).2) = 1 ∧
    t.id ∈ (handle_thought envId execTool (ActionResult.tool_use name args)
        newId agent st t).1.handled_ids ∧
    handle_thought envId execTool res2 newId2 agent
        (handle_thought envId execTool (ActionResult.tool_use name args)
          newId agent st t).1 t
      = ((handle_thought envId execTool (ActionResult.tool_use name args)
          newId agent st t).1, []) := by
  have hne : (get_recent_thoughts
      (mark_thought_handled st.db envId t.id agent t.metadata)
      agent t.index NUM_THOUGHTS_TO_CONSIDER).isEmpty = false := by
    obtain ⟨u, hu, hua, hui⟩ :=
      mark_preserves_row st.db envId t.id agent t.metadata t hmem
    exact get_recent_thoughts_ne_empty _ _ _ _
      (by norm_num [NUM_THOUGHTS_TO_CONSIDER]) u hu (hua.trans hagent)
      (le_of_eq hui)
  rw [handle_thought_tool_use envId execTool name args newId agent st t
    h hdedup hne]
  refine ⟨rfl, by simp, ?_⟩
  exact handle_thought_dup envId execTool res2 newId2 agent _ t h (by simp)

/-- Witness for `handle_thought_idempotent`: delivering `tEx` twice from a
fresh state invokes the capability once and makes the second delivery a
no-op. -/
theorem handle_thought_idempotent_witness :
    (actionable tEx = true ∧ tEx.id ∉ (⟨[], [tEx, t2Ex]⟩ : EnvState).handled_ids ∧
      tEx ∈ (⟨[], [tEx, t2Ex]⟩ : EnvState).db ∧ tEx.agent_name = "alice") ∧
    (capCount ((handle_thought "env1" (fun _ _ => "obs")
        (ActionResult.tool_use "web" "q") "n1" "alice"
        ⟨[], [tEx, t2Ex]⟩ tEx).2) = 1 ∧
      tEx.id ∈ (handle_thought "env1" (fun _ _ => "obs")
        (ActionResult.tool_use "web" "q") "n1" "alice"
        ⟨[], [tEx, t2Ex]⟩ tEx).1.handled_ids ∧
      handle_thought "env1" (fun _ _ => "obs") (ActionResult.text "again") "n2"
          "alice"
          (handle_thought "env1" (fun _ _ => "obs")
            (ActionResult.tool_use "web" "q") "n1" "alice"
            ⟨[], [tEx, t2Ex]⟩ tEx).1 tEx
        = ((handle_thought "env1" (fun _ _ => "obs")
            (ActionResult.tool_use "web" "q") "n1" "alice"
            ⟨[], [tEx, t2Ex]⟩ tEx).1, [])) := by
  refine ⟨⟨by decide, by simp, by simp, rfl⟩, ?_⟩
  exact handle_thought_idempotent "env1" (fun _ _ => "obs") "web" "q" "n1" "n2"
    "alice" (ActionResult.text "again") ⟨[], [tEx, t2Ex]⟩ tEx
    (by decide) (by simp) (by simp) rfl

/-- Fresh dispatcher state over the two-row scenario table. -/
def st0 : EnvState := ⟨[], [tEx, t2Ex]⟩

/-- C5 (amended: the midpoint-positioned observation is the tool-invocation
branch; a plain-text model reply is appended at the timeline's end instead):
for every handled action thought answered with a tool invocation, the
dispatcher first flips the metadata, then invokes the capability once, then
writes exactly one observation, and that observation's index is the
midpoint-insertion position immediately after the triggering thought's
index; in the concrete scenario with rows at `1.0` and `2.0`, the
observation lands at `1.5`, and a subsequent append lands at `3.0`. -/
theorem handle_thought_observation_position (envId : String)
    (execTool : String → String → String) (name args newId agent : String)
    (st : EnvState) (t : Thought)
    (h : actionable t = true) (hdedup : t.id ∉ st.handled_ids)
    (hmem : t ∈ st.db) (hagent : t.agent_name = agent) :
    ((handle_thought envId execTool (ActionResult.tool_use name args)
        newId agent st t).2
      = [Event.markedHandled t.id, Event.capabilityCall name args,
         Event.wroteThought newId
           (compute_insert_index
             (mark_thought_handled st.db envId t.id agent t.metadata)
             agent t.index)] ∧
     (handle_thought envId execTool (ActionResult.tool_use name args)
        newId agent st t).1.db
       = add_thought (mark_thought_handled st.db envId t.id agent t.metadata)
           newId agent (execTool name args) (some t.index)) ∧
    ((handle_thought "env1" (fun _ _ => "observation: done")
        (ActionResult.tool_use "web" "q") "obs1" "alice" st0 tEx).2
      = [Event.markedHandled "t1", Event.capabilityCall "web" "q",
         Event.wroteThought "obs1" (3 / 2)] ∧
     appendIndex (handle_thought "env1" (fun _ _ => "observation: done")
        (ActionResult.tool_use "web" "q") "obs1" "alice" st0 tEx).1.db
        "alice" = 3) := by
  have hne : (get_recent_thoughts
      (mark_thought_handled st.db envId t.id agent t.metadata)
      agent t.index NUM_THOUGHTS_TO_CONSIDER).isEmpty = false := by
    obtain ⟨u, hu, hua, hui⟩ :=
      mark_preserves_row st.db envId t.id agent t.metadata t hmem
    exact get_recent_thoughts_ne_empty _ _ _ _
      (by norm_num [NUM_THOUGHTS_TO_CONSIDER]) u hu (hua.trans hagent)
      (le_of_eq hui)
  have hS : actionable tEx = true := by decide
  have hSne : (get_recent_thoughts
      (mark_thought_handled st0.db "env1" tEx.id "alice" tEx.metadata)
      "alice" tEx.index NUM_THOUGHTS_TO_CONSIDER).isEmpty = false := by decide
  have hrunS := handle_thought_tool_use "env1" (fun _ _ => "observation: done")
    "web" "q" "obs1" "alice" st0 tEx hS (by decide) hSne
  have hminS : minIndexGt
      (mark_thought_handled st0.db "env1" tEx.id "alice" tEx.metadata)
      "alice" tEx.index = some 2 := by decide
  have hcS : assignedIndex
      (mark_thought_handled st0.db "env1" tEx.id "alice" tEx.metadata)
      "alice" (some tEx.index) = 3 / 2 := by
    show compute_insert_index
      (mark_thought_handled st0.db "env1" tEx.id "alice" tEx.metadata)
      "alice" tEx.index = 3 / 2
    unfold compute_insert_index
    rw [hminS]
    show ((1 : ℚ) + 2) / 2 = 3 / 2
    norm_num
  have hAgS : agentIndices
      (mark_thought_handled st0.db "env1" tEx.id "alice" tEx.metadata)
      "alice" = [1, 2] := by decide
  constructor
  · rw [handle_thought_tool_use envId execTool name args newId agent st t
      h hdedup hne]
    exact ⟨rfl, rfl⟩
  · constructor
    · rw [hrunS]
      rw [hcS]
      rfl
    · rw [hrunS]
      show appendIndex (add_thought
        (mark_thought_handled st0.db "env1" tEx.id "alice" tEx.metadata)
        "obs1" "alice" "observation: done" (some tEx.index)) "alice" = 3
      unfold appendIndex
      rw [agentIndices_add_thought, hAgS, hcS]
      have e1 : max (2 : ℚ) (3 / 2) = 2 := max_eq_left (by norm_num)
      have e2 : max (1 : ℚ) 2 = 2 := max_eq_right (by norm_num)
      simp [listMax, e1, e2]
      norm_num

/-- Witness for `handle_thought_observation_position`: the scenario
instantiation satisfies every hypothesis and yields the stated trace. -/
theorem handle_thought_observation_position_witness :
    (actionable tEx = true ∧ tEx.id ∉ st0.handled_ids ∧ tEx ∈ st0.db ∧
      tEx.agent_name = "alice") ∧
    (handle_thought "env1" (fun _ _ => "observation: done")
        (ActionResult.tool_use "web" "q") "obs1" "alice" st0 tEx).2
      = [Event.markedHandled tEx.id, Event.capabilityCall "web" "q",
         Event.wroteThought "obs1"
           (compute_insert_index
             (mark_thought_handled st0.db "env1" tEx.id "alice" tEx.metadata)
             "alice" tEx.index)] :=
  ⟨⟨by decide, by decide, by decide, rfl⟩,
   (handle_thought_observation_position "env1" (fun _ _ => "observation: done")
     "web" "q" "obs1" "alice" st0 tEx (by decide) (by decide) (by decide)
     rfl).1.1⟩

/-- C5 counterexample: on the same two-row scenario a plain-text model reply
makes the dispatcher append the handled action's result at index `3.0` — the
end of the timeline, not the midpoint `1.5` after the trigger — and no
capability is invoked at all. -/
theorem handle_thought_text_counterexample :
    actionable tEx = true ∧
    (handle_thought "env1" (fun _ _ => "obs") (ActionResult.text "hello")
        "n1" "alice" st0 tEx).2
      = [Event.markedHandled "t1", Event.wroteThought "n1" 3] ∧
    capCount ((handle_thought "env1" (fun _ _ => "obs")
        (ActionResult.text "hello") "n1" "alice" st0 tEx).2) = 0 ∧
    (3 : ℚ) ≠ (1 + 2) / 2 := by
  have hS : actionable tEx = true := by decide
  have hSne : (get_recent_thoughts
      (mark_thought_handled st0.db "env1" tEx.id "alice" tEx.metadata)
      "alice" tEx.index NUM_THOUGHTS_TO_CONSIDER).isEmpty = false := by decide
  have hrun := handle_thought_text "env1" (fun _ _ => "obs") "hello" "n1"
    "alice" st0 tEx hS (by decide) hSne
  have hMax : listMax (agentIndices
      (mark_thought_handled st0.db "env1" tEx.id "alice" tEx.metadata)
      "alice") = some 2 := by decide
  have hApp : assignedIndex
      (mark_thought_handled st0.db "env1" tEx.id "alice" tEx.metadata)
      "alice" none = 3 := by
    show appendIndex
      (mark_thought_handled st0.db "env1" tEx.id "alice" tEx.metadata)
      "alice" = 3
    unfold appendIndex
    rw [hMax]
    norm_num
  refine ⟨hS, ?_, ?_, by norm_num⟩
  · rw [hrun, hApp]
    rfl
  · rw [hrun]
    rfl

/-- The constant `REPL_TIMEOUT_SECONDS` (agent/repl.py line 21). -/
def REPL_TIMEOUT_SECONDS : ℕ := 30

/-- The diagnostic `execute_repl_block` appends on `FuturesTimeoutError`
(agent/repl.py line 67). -/
def timeoutMessage : String :=
  "\n[ERROR] REPL block timed out after "
    ++ toString REPL_TIMEOUT_SECONDS ++ "s\n"

/-- Behavior of `exec(code, namespace)` inside the worker thread submitted by
`execute_repl_block`: it either finishes at wall-clock `time` seconds —
normally or raising (with `raised` the traceback text the caller formats) —
or it runs forever (e.g. `while True: pass`). -/
inductive ExecBehavior where
  | finishes (time : ℕ) (output : String) (raised : Option String)
  | runsForever (output : String)
deriving DecidableEq

/-- Model of `execute_repl_block` (agent/repl.py lines 50-71) as a map from the
block's behavior to when and with what the call returns (`none` = never).
The timing model follows CPython's `concurrent.futures` semantics: the
`with ThreadPoolExecutor(...)` block calls `shutdown(wait=True)` on exit,
joining the worker thread.  Hence: a block finishing within the deadline
returns its captured output (or output plus the re-raised exception's
traceback); a block finishing after the deadline makes `future.result`
raise `FuturesTimeoutError` at 30s, but the join blocks until the worker
finishes at `time`, after which the handler appends the diagnostic; a block
that never finishes is never joined, so the call never returns. -/
def execute_repl_block : ExecBehavior → Option (ℕ × String)
  | ExecBehavior.finishes time output raised =>
    if time ≤ REPL_TIMEOUT_SECONDS then
      match raised with
      | none => some (time, output)
      | some tb => some (time, output ++ tb)
    else some (time, output ++ timeoutMessage)
  | ExecBehavior.runsForever _ => none

/-- C2: exceptions are converted to data (captured output plus traceback,
returned normally), but the timeout claim fails: a block that spins forever
makes `execute_repl_block` never return, because the executor context-manager
joins the still-running worker thread and the `FuturesTimeoutError` handler
only runs after that join; a late-finishing block returns only at its own
finish time, beyond `timeout + ε`. -/
theorem execute_repl_block_timeout_bug :
    (∀ out, execute_repl_block (ExecBehavior.runsForever out) = none) ∧
    (∀ t out tb, execute_repl_block (ExecBehavior.finishes t out (some tb))
      = if t ≤ REPL_TIMEOUT_SECONDS then some (t, out ++ tb)
        else some (t, out ++ timeoutMessage)) ∧
    (∀ t out, execute_repl_block (ExecBehavior.finishes t out none)
      = if t ≤ REPL_TIMEOUT_SECONDS then some (t, out)
        else some (t, out ++ timeoutMessage)) := by
  refine ⟨fun out => rfl, ?_, ?_⟩
  · intro t out tb
    simp only [execute_repl_block]
  · intro t out
    simp only [execute_repl_block]

/-- The `_FinalResult` sentinel (agent/repl.py lines 24-41): `is_set` flag
plus captured `value` (initially `None`). -/
structure FinalCell where
  is_set : Bool
  value : Option String
deriving DecidableEq

/-- One extracted ```repl block of a model reply, abstracted by its effect:
the output `execute_repl_block` returns for it, and whether its code ends up
calling `FINAL(v)` (or `FINAL_VAR` resolving to `v`) on the shared cell. -/
structure ReplBlock where
  output : String
  callsFinal : Option String
deriving DecidableEq

/-- Effect of running one block on the shared final cell: `FINAL` sets
`is_set := True` and stores the value; otherwise the cell is unchanged. -/
def applyFinal (cell : FinalCell) (b : ReplBlock) : FinalCell :=
  match b.callsFinal with
  | some v => ⟨true, some v⟩
  | none => cell

/-- Result of the per-reply block loop in `run_rlm_loop`: either an early
return with `final.value` after `executed` blocks, or all blocks ran. -/
inductive BlocksOutcome where
  | earlyFinal (value : Option String) (executed : ℕ)
  | ranAll (all_output : List String) (cell : FinalCell) (executed : ℕ)
deriving DecidableEq

/-- The block-execution section of `run_rlm_loop` (agent/llm.py lines
112-124): execute each block in order, collect non-empty outputs
(`if output: all_output.append(output)`), and after each block return
`final.value` immediately when `final.is_set`. -/
def runReplBlocks (cell : FinalCell) (acc : List String) (executed : ℕ) :
    List ReplBlock → BlocksOutcome
  | [] => BlocksOutcome.ranAll acc cell executed
  | b :: rest =>
    let acc1 := if b.output = "" then acc else acc ++ [b.output]
    let cell1 := applyFinal cell b
    if cell1.is_set then BlocksOutcome.earlyFinal cell1.value (executed + 1)
    else runReplBlocks cell1 acc1 (executed + 1) rest

/-- C7: the termination flag is checked right after each block, so when a
block calls `FINAL(v)` the loop returns `v` having executed only that block —
the outcome is independent of the remaining blocks of the reply, which are
never executed. -/
theorem rlm_final_short_circuit (cell : FinalCell) (acc : List String)
    (k : ℕ) (b : ReplBlock) (rest : List ReplBlock) (v : String)
    (h : b.callsFinal = some v) :
    runReplBlocks cell acc k (b :: rest)
      = BlocksOutcome.earlyFinal (some v) (k + 1) := by
  unfold runReplBlocks applyFinal
  rw [h]
  rfl

/-- Witness for `rlm_final_short_circuit`: a reply with two blocks whose
first calls `FINAL` executes one block and returns the captured value. -/
theorem rlm_final_short_circuit_witness :
    (ReplBlock.mk "out1" (some "the thought")).callsFinal
        = some "the thought" ∧
    runReplBlocks ⟨false, none⟩ [] 0
        [⟨"out1", some "the thought"⟩, ⟨"out2", none⟩]
      = BlocksOutcome.earlyFinal (some "the thought") 1 :=
  ⟨rfl, rlm_final_short_circuit ⟨false, none⟩ [] 0 ⟨"out1", some "the thought"⟩
    [⟨"out2", none⟩] "the thought" rfl⟩

/-- The constant `HEARTBEAT_INTERVAL` (env/main.py line 190). -/
def HEARTBEAT_INTERVAL : ℕ := 120

/-- The constant `HEARTBEAT_TIMEOUT` (env/main.py line 191). -/
def HEARTBEAT_TIMEOUT : ℕ := 15

/-- The probe row `realtime_heartbeat` inserts (env/main.py lines 234-238):
sentinel body, sentinel index `-1` outside the normal ordering range. -/
def probeRow (probeId agent : String) : Thought :=
  { id := probeId, agent_name := agent, body := "__heartbeat_probe__",
    index := -1, metadata := [], embedding := none, created_at := 0 }

/-- Result of one heartbeat cycle: the thoughts table, the subscription
handle held in `channel` afterwards, and the handles unsubscribed during the
cycle.  Handles are opaque (`ℕ` here); a fresh one is produced by
`subscribe_to_thoughts`. -/
structure HBResult where
  db : List Thought
  channel : ℕ
  unsubscribed : List ℕ
deriving DecidableEq

/-- One iteration of `realtime_heartbeat` (env/main.py lines 225-263) with
the external calls succeeding: insert the probe row (the database assigns
`probeId`), wait up to `HEARTBEAT_TIMEOUT` seconds for the subscription to
echo it (`echoArrives` says whether `asyncio.wait_for` returns before
`TimeoutError`); on timeout unsubscribe the stale channel and install a
fresh subscription; in the `finally` block delete the probe row by id. -/
def realtime_heartbeat_cycle (db : List Thought) (agent probeId : String)
    (ch freshCh : ℕ) (echoArrives : Bool) : HBResult :=
  let db1 := db ++ [probeRow probeId agent]
  let cleaned := db1.filter (fun t => !(t.id == probeId))
  if echoArrives then
    { db := cleaned, channel := ch, unsubscribed := [] }
  else
    { db := cleaned, channel := freshCh, unsubscribed := [ch] }

/-- C9: when the probe echo misses the timeout the stale channel is
unsubscribed and replaced by the freshly created handle (and kept when the
echo arrives), and in both outcomes the probe row is deleted afterward,
restoring the table. -/
theorem heartbeat_resubscribe_and_cleanup (db : List Thought)
    (agent probeId : String) (ch freshCh : ℕ) (echo : Bool)
    (hfresh : ∀ t ∈ db, t.id ≠ probeId) :
    (realtime_heartbeat_cycle db agent probeId ch freshCh echo).channel
        = (if echo then ch else freshCh) ∧
    (realtime_heartbeat_cycle db agent probeId ch freshCh echo).unsubscribed
        = (if echo then [] else [ch]) ∧
    (realtime_heartbeat_cycle db agent probeId ch freshCh echo).db = db := by
  have hclean : (db ++ [probeRow probeId agent]).filter
      (fun t => !(t.id == probeId)) = db := by
    rw [List.filter_append]
    have h1 : db.filter (fun t => !(t.id == probeId)) = db :=
      List.filter_eq_self.mpr (fun t ht => by simp [hfresh t ht])
    have h2 : [probeRow probeId agent].filter
        (fun t => !(t.id == probeId)) = [] := by
      simp [probeRow]
    rw [h1, h2, List.append_nil]
  cases echo <;> simp [realtime_heartbeat_cycle, hclean]

/-- Witness for `heartbeat_resubscribe_and_cleanup`: over a one-row table
with a fresh probe id, the silent-death path replaces channel `7` with the
fresh channel `8`, and the probe row is cleaned up. -/
theorem heartbeat_resubscribe_and_cleanup_witness :
    (∀ t ∈ [tEx], t.id ≠ "p1") ∧
    (realtime_heartbeat_cycle [tEx] "alice" "p1" 7 8 false).channel
        = (if false then 7 else 8) ∧
    (realtime_heartbeat_cycle [tEx] "alice" "p1" 7 8 false).unsubscribed
        = (if false then [] else [7]) ∧
    (realtime_heartbeat_cycle [tEx] "alice" "p1" 7 8 false).db = [tEx] :=
  ⟨by decide, heartbeat_resubscribe_and_cleanup [tEx] "alice" "p1" 7 8 false
    (by decide)⟩
